import Mathlib

/-!
Verification of the `cache` package: an in-process key/value store.

The repository holds two variants of the cache:
* the current two-loop variant (one serializing loop for the item map,
  one for the expiry-timer map), with TTL support via `Addf` and the
  generic `Expire` set-option;
* an older single-loop variant without TTL support.

Go maps are modelled as association lists without duplicate keys; each
Go map primitive (`m[k] = v`, `delete(m, k)`, `v, ok := m[k]`,
`for k := range m`) is modelled once and shared by both variants.
Timers are modelled by unique identifiers carrying a `stopped` flag;
real time is not modelled, only the arming/stopping bookkeeping.
-/

section GoMap

variable {κ : Type} {α : Type} [DecidableEq κ]

/-- Go map write `m[k] = v`: overwrite the entry for `k` if present,
otherwise add a fresh entry. -/
def mapInsert (k : κ) (v : α) : List (κ × α) → List (κ × α)
  | [] => [(k, v)]
  | p :: rest => if p.1 = k then (k, v) :: rest else p :: mapInsert k v rest

/-- Go map read `v, ok := m[k]`: `some` the stored value when present. -/
def mapLookup (k : κ) : List (κ × α) → Option α
  | [] => none
  | p :: rest => if p.1 = k then some p.2 else mapLookup k rest

/-- Go map delete `delete(m, k)`. -/
def mapErase (k : κ) : List (κ × α) → List (κ × α)
  | [] => []
  | p :: rest => if p.1 = k then mapErase k rest else p :: mapErase k rest

/-- The key multiset of a map, as produced by `for k := range m`. -/
def mapKeys (s : List (κ × α)) : List κ :=
  s.map Prod.fst

/-- A well-formed Go map binds each key at most once. -/
abbrev NodupKeys (s : List (κ × α)) : Prop :=
  (mapKeys s).Nodup

theorem mapLookup_mapInsert_self (k : κ) (v : α) (s : List (κ × α)) :
    mapLookup k (mapInsert k v s) = some v := by
  induction s with
  | nil => simp [mapInsert, mapLookup]
  | cons p rest ih =>
      by_cases h : p.1 = k
      · simp [mapInsert, mapLookup, h]
      · simp [mapInsert, mapLookup, h, ih]

theorem mapLookup_mapInsert_ne {k k' : κ} (h : k' ≠ k) (v : α) (s : List (κ × α)) :
    mapLookup k' (mapInsert k v s) = mapLookup k' s := by
  induction s with
  | nil => simp [mapInsert, mapLookup, Ne.symm h]
  | cons p rest ih =>
      by_cases hp : p.1 = k
      · subst hp
        simp [mapInsert, mapLookup, Ne.symm h]
      · simp [mapInsert, mapLookup, hp, ih]

theorem mapLookup_mapErase_self (k : κ) (s : List (κ × α)) :
    mapLookup k (mapErase k s) = none := by
  induction s with
  | nil => simp [mapErase, mapLookup]
  | cons p rest ih =>
      by_cases h : p.1 = k
      · simp [mapErase, h, ih]
      · simp [mapErase, mapLookup, h, ih]

theorem mapErase_sublist (k : κ) (s : List (κ × α)) :
    (mapErase k s).Sublist s := by
  induction s with
  | nil => simp [mapErase]
  | cons p rest ih =>
      by_cases h : p.1 = k
      · simp only [mapErase, if_pos h]
        exact ih.cons p
      · simp only [mapErase, if_neg h]
        exact ih.cons₂ p

theorem mem_mapKeys_mapInsert {a k : κ} (v : α) (s : List (κ × α)) :
    a ∈ mapKeys (mapInsert k v s) ↔ a = k ∨ a ∈ mapKeys s := by
  induction s with
  | nil => simp [mapInsert, mapKeys]
  | cons p rest ih =>
      by_cases h : p.1 = k
      · subst h
        have e : mapInsert p.1 v (p :: rest) = (p.1, v) :: rest := by
          simp [mapInsert]
        rw [e]
        simp only [mapKeys, List.map_cons, List.mem_cons]
        tauto
      · simp only [mapInsert, if_neg h, mapKeys, List.map_cons, List.mem_cons]
        simp only [mapKeys] at ih
        rw [ih]
        tauto

theorem nodupKeys_mapInsert {k : κ} {v : α} {s : List (κ × α)}
    (h : NodupKeys s) : NodupKeys (mapInsert k v s) := by
  induction s with
  | nil => simp [mapInsert, NodupKeys, mapKeys]
  | cons p rest ih =>
      simp only [NodupKeys, mapKeys, List.map_cons, List.nodup_cons] at h
      by_cases hp : p.1 = k
      · subst hp
        simpa [mapInsert, NodupKeys, mapKeys] using h
      · have h2 := ih h.2
        simp only [mapInsert, if_neg hp, NodupKeys, mapKeys, List.map_cons,
          List.nodup_cons]
        refine ⟨?_, h2⟩
        intro hmem
        rcases (mem_mapKeys_mapInsert v rest).1 hmem with h1 | h1
        · exact hp h1
        · exact h.1 h1

theorem nodupKeys_mapErase {k : κ} {s : List (κ × α)}
    (h : NodupKeys s) : NodupKeys (mapErase k s) :=
  List.Nodup.sublist ((mapErase_sublist k s).map Prod.fst) h

theorem mapLookup_isSome_iff_mem (k : κ) (s : List (κ × α)) :
    (mapLookup k s).isSome = true ↔ k ∈ mapKeys s := by
  induction s with
  | nil => simp [mapLookup, mapKeys]
  | cons p rest ih =>
      by_cases h : p.1 = k
      · simp [mapLookup, mapKeys, h]
      · simp [mapLookup, mapKeys, h, ih, Ne.symm h]

theorem mem_mapErase {k : κ} {p : κ × α} {s : List (κ × α)} :
    p ∈ mapErase k s ↔ p ∈ s ∧ p.1 ≠ k := by
  induction s with
  | nil => simp [mapErase]
  | cons q rest ih =>
      by_cases h : q.1 = k
      · simp only [mapErase, if_pos h, ih, List.mem_cons]
        constructor
        · rintro ⟨hm, hne⟩
          exact ⟨Or.inr hm, hne⟩
        · rintro ⟨hq | hm, hne⟩
          · exact absurd (by rw [hq]; exact h) hne
          · exact ⟨hm, hne⟩
      · simp only [mapErase, if_neg h, List.mem_cons, ih]
        constructor
        · rintro (hq | ⟨hm, hne⟩)
          · exact ⟨Or.inl hq, by rw [hq]; exact h⟩
          · exact ⟨Or.inr hm, hne⟩
        · rintro ⟨hq | hm, hne⟩
          · exact Or.inl hq
          · exact Or.inr ⟨hm, hne⟩

/-- Go loop `for key := range items { delete(items, key) }`: delete every
key that the map held at the start of the loop. -/
def mapClear (s : List (κ × α)) : List (κ × α) :=
  (mapKeys s).foldl (fun acc k => mapErase k acc) s

theorem foldl_mapErase_of_keys_subset (l : List κ) :
    ∀ t : List (κ × α), (∀ p ∈ t, p.1 ∈ l) →
      l.foldl (fun acc k => mapErase k acc) t = [] := by
  induction l with
  | nil =>
      intro t ht
      cases t with
      | nil => rfl
      | cons p rest =>
          exact absurd (ht p (List.mem_cons_self p rest)) (List.not_mem_nil p.1)
  | cons k l ih =>
      intro t ht
      simp only [List.foldl_cons]
      refine ih (mapErase k t) ?_
      intro p hp
      rcases mem_mapErase.1 hp with ⟨hmem, hne⟩
      rcases List.mem_cons.1 (ht p hmem) with h1 | h1
      · exact absurd h1 hne
      · exact h1

theorem mapClear_eq_nil (s : List (κ × α)) : mapClear s = [] := by
  refine foldl_mapErase_of_keys_subset (mapKeys s) s ?_
  intro p hp
  exact List.mem_map_of_mem Prod.fst hp

end GoMap

/-! ## The current (two-loop) cache variant, `cache.go` lines 1-146 -/

/-- The state of one scheduled one-shot deletion callback: the
`*time.Timer` produced by `time.AfterFunc(expiry, func() { c.Delete(key) })`.
`stopped` records whether `Stop` has been called on it. -/
structure TimerInfo where
  key : String
  duration : Nat
  stopped : Bool
  deriving DecidableEq, Repr

/-- The state owned by the two serializing loops: `loopItemOps` owns
`items`, `loopExpiryOps` owns `expiries`.  Timer handles are modelled by
the order of their creation: `nextTimer` is the next fresh identifier and
`timers` records every created timer's current state. -/
structure CacheState (V : Type) where
  items : List (String × V)
  expiries : List (String × Nat)
  timers : List (Nat × TimerInfo)
  nextTimer : Nat
  deriving Repr

variable {V : Type}

/-- `New` returns an empty cache: both loops start from empty maps. -/
def Cache.New : CacheState V :=
  ⟨[], [], [], 0⟩

/-- `Add` submits `items[key] = val` to the item loop. -/
def Cache.Add (st : CacheState V) (key : String) (val : V) : CacheState V :=
  { st with items := mapInsert key val st.items }

/-- `timer.Stop()` on the timer handle `tid`. -/
def stopTimer (tid : Nat) (timers : List (Nat × TimerInfo)) :
    List (Nat × TimerInfo) :=
  match mapLookup tid timers with
  | some info => mapInsert tid { info with stopped := true } timers
  | none => timers

/-- The closure both `Addf` and the generic `Expire` option submit to the
expiry loop: `if timer, ok := expiries[key]; ok { timer.Stop() }` and then
`expiries[key] = time.AfterFunc(expiry, func() { c.Delete(key) })`. -/
def Cache.arm (st : CacheState V) (key : String) (expiry : Nat) : CacheState V :=
  let timers :=
    match mapLookup key st.expiries with
    | some tid => stopTimer tid st.timers
    | none => st.timers
  { st with
    expiries := mapInsert key st.nextTimer st.expiries
    timers := mapInsert st.nextTimer ⟨key, expiry, false⟩ timers
    nextTimer := st.nextTimer + 1 }

/-- `Addf` inserts the entry (`c.Add(key, val)`) and then submits the
arming closure to the expiry loop. -/
def Cache.Addf (st : CacheState V) (key : String) (val : V) (expiry : Nat) :
    CacheState V :=
  Cache.arm (Cache.Add st key val) key expiry

/-- A `SetOption` performs logic after a set action completes
(generic variant, `options.go`). -/
def SetOption (V : Type) : Type :=
  CacheState V → String → V → CacheState V

/-- `Expire` is a `SetOption` that causes the entry to expire after the
given duration; its closure is the same expiry-loop operation as `Addf`'s. -/
def Expire (expiry : Nat) : SetOption V :=
  fun c key _val => Cache.arm c key expiry

/-- `Delete` submits to the item loop:
`if _, ok := items[key]; ok { delete(items, key) }`. -/
def Cache.Delete (st : CacheState V) (key : String) : CacheState V :=
  { st with items :=
      if (mapLookup key st.items).isSome then mapErase key st.items
      else st.items }

/-- `Clear` submits the range-delete loop to the item loop. -/
def Cache.Clear (st : CacheState V) : CacheState V :=
  { st with items := mapClear st.items }

/-- `Get` reads `items[key]`; a missing key yields the zero value. -/
def Cache.Get [Inhabited V] (st : CacheState V) (key : String) : V :=
  (mapLookup key st.items).getD default

/-- `Getf` reads `v, ok := items[key]` and returns both. -/
def Cache.Getf [Inhabited V] (st : CacheState V) (key : String) : V × Bool :=
  ((mapLookup key st.items).getD default, (mapLookup key st.items).isSome)

/-- `Items` copies the item map entry by entry into a fresh map `cp` and
returns the copy. -/
def Cache.Items (st : CacheState V) : List (String × V) :=
  st.items.foldl (fun cp p => mapInsert p.1 p.2 cp) []

/-- `Keys` collects the item map's keys and sorts them (`sort.Strings`). -/
def Cache.Keys (st : CacheState V) : List String :=
  List.insertionSort (fun a b => a ≤ b) (mapKeys st.items)

/-- A timer handle is still pending when it was created and not stopped. -/
def timerPending (st : CacheState V) (tid : Nat) : Bool :=
  match mapLookup tid st.timers with
  | some info => !info.stopped
  | none => false

/-- A key has a pending expiry record when the expiry map holds an
unstopped timer for it. -/
def pendingExpiry (st : CacheState V) (key : String) : Bool :=
  match mapLookup key st.expiries with
  | some tid => timerPending st tid
  | none => false

/-- The number of expiry records held for one key. -/
def expiryRecordCount (st : CacheState V) (key : String) : Nat :=
  (st.expiries.filter (fun p => decide (p.1 = key))).length

/-- States reachable by the public operations from a fresh cache. -/
inductive Reachable : CacheState V → Prop where
  | new : Reachable Cache.New
  | add (st : CacheState V) (k : String) (v : V) :
      Reachable st → Reachable (Cache.Add st k v)
  | addf (st : CacheState V) (k : String) (v : V) (d : Nat) :
      Reachable st → Reachable (Cache.Addf st k v d)
  | expireOpt (st : CacheState V) (k : String) (v : V) (d : Nat) :
      Reachable st → Reachable (Expire d st k v)
  | del (st : CacheState V) (k : String) :
      Reachable st → Reachable (Cache.Delete st k)
  | clear (st : CacheState V) :
      Reachable st → Reachable (Cache.Clear st)

/-- Structural well-formedness: each map binds a key at most once, and
every timer identifier in use is below the fresh counter. -/
structure WF (st : CacheState V) : Prop where
  items_nodup : NodupKeys st.items
  expiries_nodup : NodupKeys st.expiries
  timers_nodup : NodupKeys st.timers
  expiries_lt : ∀ k tid, mapLookup k st.expiries = some tid → tid < st.nextTimer
  timers_lt : ∀ tid info, mapLookup tid st.timers = some info → tid < st.nextTimer

theorem mapLookup_mapInsert {κ α : Type} [DecidableEq κ]
    (k k' : κ) (v : α) (s : List (κ × α)) :
    mapLookup k' (mapInsert k v s) =
      if k' = k then some v else mapLookup k' s := by
  by_cases h : k' = k
  · subst h
    simp [mapLookup_mapInsert_self]
  · simp [h, mapLookup_mapInsert_ne h]

theorem nodupKeys_stopTimer {timers : List (Nat × TimerInfo)} (tid : Nat)
    (h : NodupKeys timers) : NodupKeys (stopTimer tid timers) := by
  unfold stopTimer
  cases mapLookup tid timers with
  | none => exact h
  | some info => exact nodupKeys_mapInsert h

theorem stopTimer_lt {timers : List (Nat × TimerInfo)} {n tid : Nat}
    (h : ∀ t i, mapLookup t timers = some i → t < n) :
    ∀ t i, mapLookup t (stopTimer tid timers) = some i → t < n := by
  intro t i ht
  unfold stopTimer at ht
  cases e : mapLookup tid timers with
  | none =>
      rw [e] at ht
      exact h t i ht
  | some info =>
      rw [e] at ht
      rw [mapLookup_mapInsert] at ht
      by_cases htid : t = tid
      · exact htid ▸ h tid info e
      · rw [if_neg htid] at ht
        exact h t i ht

theorem wf_new : WF (Cache.New (V := V)) := by
  refine ⟨?_, ?_, ?_, ?_, ?_⟩ <;>
    simp [Cache.New, NodupKeys, mapKeys, mapLookup]

theorem wf_add {st : CacheState V} (k : String) (v : V) (h : WF st) :
    WF (Cache.Add st k v) := by
  refine ⟨nodupKeys_mapInsert h.items_nodup, h.expiries_nodup, h.timers_nodup,
    h.expiries_lt, h.timers_lt⟩

theorem wf_arm {st : CacheState V} (k : String) (d : Nat) (h : WF st) :
    WF (Cache.arm st k d) := by
  refine ⟨h.items_nodup, nodupKeys_mapInsert h.expiries_nodup, ?_, ?_, ?_⟩
  · have e : (Cache.arm st k d).timers =
        mapInsert st.nextTimer ⟨k, d, false⟩
          (match mapLookup k st.expiries with
           | some tid0 => stopTimer tid0 st.timers
           | none => st.timers) := rfl
    rw [e]
    refine nodupKeys_mapInsert ?_
    cases e : mapLookup k st.expiries with
    | none => simpa [e] using h.timers_nodup
    | some tid => simpa [e] using nodupKeys_stopTimer tid h.timers_nodup
  · intro k' tid hlook
    show tid < st.nextTimer + 1
    rw [show (Cache.arm st k d).expiries = mapInsert k st.nextTimer st.expiries
        from rfl] at hlook
    rw [mapLookup_mapInsert] at hlook
    by_cases hk : k' = k
    · rw [if_pos hk] at hlook
      have := Option.some.inj hlook
      omega
    · rw [if_neg hk] at hlook
      exact Nat.lt_succ_of_lt (h.expiries_lt k' tid hlook)
  · intro tid info hlook
    show tid < st.nextTimer + 1
    rw [show (Cache.arm st k d).timers =
        mapInsert st.nextTimer ⟨k, d, false⟩
          (match mapLookup k st.expiries with
           | some tid0 => stopTimer tid0 st.timers
           | none => st.timers) from rfl] at hlook
    rw [mapLookup_mapInsert] at hlook
    by_cases ht : tid = st.nextTimer
    · omega
    · rw [if_neg ht] at hlook
      cases e : mapLookup k st.expiries with
      | none =>
          rw [e] at hlook
          exact Nat.lt_succ_of_lt (h.timers_lt tid info hlook)
      | some tid0 =>
          rw [e] at hlook
          exact Nat.lt_succ_of_lt (stopTimer_lt h.timers_lt tid info hlook)

theorem wf_addf {st : CacheState V} (k : String) (v : V) (d : Nat) (h : WF st) :
    WF (Cache.Addf st k v d) :=
  wf_arm k d (wf_add k v h)

theorem wf_delete {st : CacheState V} (k : String) (h : WF st) :
    WF (Cache.Delete st k) := by
  refine ⟨?_, h.expiries_nodup, h.timers_nodup, h.expiries_lt, h.timers_lt⟩
  show NodupKeys (if _ then mapErase k st.items else st.items)
  by_cases hk : (mapLookup k st.items).isSome
  · simpa [hk] using nodupKeys_mapErase h.items_nodup
  · simpa [hk] using h.items_nodup

theorem wf_clear {st : CacheState V} (h : WF st) : WF (Cache.Clear st) := by
  refine ⟨?_, h.expiries_nodup, h.timers_nodup, h.expiries_lt, h.timers_lt⟩
  show NodupKeys (mapClear st.items)
  rw [mapClear_eq_nil]
  simp [NodupKeys, mapKeys]

theorem reachable_wf {st : CacheState V} (h : Reachable st) : WF st := by
  induction h with
  | new => exact wf_new
  | add st k v _ ih => exact wf_add k v ih
  | addf st k v d _ ih => exact wf_addf k v d ih
  | expireOpt st k v d _ ih => exact wf_arm k d ih
  | del st k _ ih => exact wf_delete k ih
  | clear st _ ih => exact wf_clear ih

theorem arm_expiries_eq {st : CacheState V} (k : String) (d : Nat) :
    (Cache.arm st k d).expiries = mapInsert k st.nextTimer st.expiries :=
  rfl

theorem arm_lookup_self {st : CacheState V} (k : String) (d : Nat) :
    mapLookup k (Cache.arm st k d).expiries = some st.nextTimer := by
  rw [arm_expiries_eq, mapLookup_mapInsert_self]

theorem timerPending_arm_old {st : CacheState V} {k : String} {tid : Nat}
    (d : Nat) (hlt : tid < st.nextTimer)
    (hk : mapLookup k st.expiries = some tid) :
    timerPending (Cache.arm st k d) tid = false := by
  have e : (Cache.arm st k d).timers =
      mapInsert st.nextTimer ⟨k, d, false⟩ (stopTimer tid st.timers) := by
    show mapInsert st.nextTimer ⟨k, d, false⟩
        (match mapLookup k st.expiries with
         | some tid0 => stopTimer tid0 st.timers
         | none => st.timers) =
      mapInsert st.nextTimer ⟨k, d, false⟩ (stopTimer tid st.timers)
    rw [hk]
  unfold timerPending
  rw [e, mapLookup_mapInsert_ne (Nat.ne_of_lt hlt)]
  unfold stopTimer
  cases e2 : mapLookup tid st.timers with
  | none => simp [e2]
  | some info => simp [mapLookup_mapInsert_self]

theorem filter_key_eq_nil_of_not_mem {κ α : Type} [DecidableEq κ]
    {key : κ} {s : List (κ × α)} (h : key ∉ mapKeys s) :
    s.filter (fun p => decide (p.1 = key)) = [] := by
  induction s with
  | nil => rfl
  | cons p rest ih =>
      simp only [mapKeys, List.map_cons, List.mem_cons, not_or] at h
      have hp : ¬p.1 = key := fun hh => h.1 (hh ▸ rfl)
      simp only [List.filter_cons, decide_eq_true_eq, hp, if_false]
      exact ih (by simpa [mapKeys] using h.2)

theorem filter_key_length_le_one {κ α : Type} [DecidableEq κ]
    {key : κ} {s : List (κ × α)} (h : NodupKeys s) :
    (s.filter (fun p => decide (p.1 = key))).length ≤ 1 := by
  induction s with
  | nil => simp
  | cons p rest ih =>
      simp only [NodupKeys, mapKeys, List.map_cons, List.nodup_cons] at h
      by_cases hp : p.1 = key
      · subst hp
        rw [List.filter_cons]
        rw [if_pos (by simp)]
        rw [filter_key_eq_nil_of_not_mem h.1]
        simp
      · rw [List.filter_cons]
        rw [if_neg (by simpa using hp)]
        exact ih h.2

theorem expiryRecordCount_le_one {st : CacheState V} (key : String)
    (h : WF st) : expiryRecordCount st key ≤ 1 :=
  filter_key_length_le_one h.expiries_nodup

/-! ## The older single-loop cache variant, `cache.go` lines 147-263 -/

/-- `New` (single-loop variant): `loop` starts from an empty item map. -/
def CacheV1.New : List (String × V) :=
  []

/-- `Add` (single-loop variant): `items[key] = val`. -/
def CacheV1.Add (items : List (String × V)) (key : String) (val : V) :
    List (String × V) :=
  mapInsert key val items

/-- `Clear` (single-loop variant): the range-delete loop. -/
def CacheV1.Clear (items : List (String × V)) : List (String × V) :=
  mapClear items

/-- `Delete` (single-loop variant):
`if _, ok := items[key]; ok { delete(items, key) }`. -/
def CacheV1.Delete (items : List (String × V)) (key : String) :
    List (String × V) :=
  if (mapLookup key items).isSome then mapErase key items else items

/-- `Get` (single-loop variant): `result <- items[key]`. -/
def CacheV1.Get [Inhabited V] (items : List (String × V)) (key : String) : V :=
  (mapLookup key items).getD default

/-- `Getf` (single-loop variant): `v, ok := items[key]`. -/
def CacheV1.Getf [Inhabited V] (items : List (String × V)) (key : String) :
    V × Bool :=
  ((mapLookup key items).getD default, (mapLookup key items).isSome)

/-- `Items` (single-loop variant) sends the live map itself
(`result <- items`), not a copy. -/
def CacheV1.Items (items : List (String × V)) : List (String × V) :=
  items

/-- `Keys` (single-loop variant): collect the keys, `sort.Strings`. -/
def CacheV1.Keys (items : List (String × V)) : List String :=
  List.insertionSort (fun a b => a ≤ b) (mapKeys items)

/-! ## Operation sequences over the shared TTL-free operation set -/

/-- One call from the operation set both variants support
(no TTL arming and no `Items`). -/
inductive CacheOp (V : Type) where
  | add (key : String) (val : V)
  | del (key : String)
  | clear
  | get (key : String)
  | getf (key : String)
  | keys

/-- The observable outcome of one call. -/
inductive CacheOut (V : Type) where
  | ack
  | val (v : V)
  | valf (v : V) (found : Bool)
  | keyList (ks : List String)

/-- Execute one call against the two-loop cache. -/
def Cache.applyOp [Inhabited V] (st : CacheState V) :
    CacheOp V → CacheState V × CacheOut V
  | .add k v => (Cache.Add st k v, .ack)
  | .del k => (Cache.Delete st k, .ack)
  | .clear => (Cache.Clear st, .ack)
  | .get k => (st, .val (Cache.Get st k))
  | .getf k => (st, .valf (Cache.Getf st k).1 (Cache.Getf st k).2)
  | .keys => (st, .keyList (Cache.Keys st))

/-- Execute a call sequence against the two-loop cache, collecting the
outcomes in order. -/
def Cache.runOps [Inhabited V] (st : CacheState V) :
    List (CacheOp V) → CacheState V × List (CacheOut V)
  | [] => (st, [])
  | op :: rest =>
      let r := Cache.applyOp st op
      let r2 := Cache.runOps r.1 rest
      (r2.1, r.2 :: r2.2)

/-- Execute one call against the single-loop cache. -/
def CacheV1.applyOp [Inhabited V] (items : List (String × V)) :
    CacheOp V → List (String × V) × CacheOut V
  | .add k v => (CacheV1.Add items k v, .ack)
  | .del k => (CacheV1.Delete items k, .ack)
  | .clear => (CacheV1.Clear items, .ack)
  | .get k => (items, .val (CacheV1.Get items k))
  | .getf k => (items, .valf (CacheV1.Getf items k).1 (CacheV1.Getf items k).2)
  | .keys => (items, .keyList (CacheV1.Keys items))

/-- Execute a call sequence against the single-loop cache. -/
def CacheV1.runOps [Inhabited V] (items : List (String × V)) :
    List (CacheOp V) → List (String × V) × List (CacheOut V)
  | [] => (items, [])
  | op :: rest =>
      let r := CacheV1.applyOp items op
      let r2 := CacheV1.runOps r.1 rest
      (r2.1, r.2 :: r2.2)

/-! ## Reference-semantics model for `Items`

Go maps are reference values: sending a map on a channel sends the
reference, not the contents.  To compare the two `Items` variants the
item map is placed on a heap of allocated map objects, addressed by
allocation order. -/

/-- A heap of allocated Go map objects. -/
structure MapHeap (V : Type) where
  cells : List (Nat × List (String × V))
  next : Nat

/-- Read the map object at address `r`. -/
def heapRead (h : MapHeap V) (r : Nat) : List (String × V) :=
  (mapLookup r h.cells).getD []

/-- Overwrite the map object at address `r`. -/
def heapWrite (h : MapHeap V) (r : Nat) (m : List (String × V)) : MapHeap V :=
  { h with cells := mapInsert r m h.cells }

/-- Allocate a fresh map object, returning its address. -/
def heapAlloc (h : MapHeap V) (m : List (String × V)) : Nat × MapHeap V :=
  (h.next, ⟨mapInsert h.next m h.cells, h.next + 1⟩)

/-- A cache whose item map lives on the heap: `store` is the address of
the map owned by the serializing loop. -/
structure HeapCache (V : Type) where
  heap : MapHeap V
  store : Nat

/-- `New`, heap model: the loop allocates its empty item map. -/
def HeapCache.new : HeapCache V :=
  ⟨⟨[(0, [])], 1⟩, 0⟩

/-- `Add`, heap model: `items[key] = val` mutates the loop's map object. -/
def HeapCache.add (c : HeapCache V) (key : String) (val : V) : HeapCache V :=
  { c with heap :=
      heapWrite c.heap c.store (mapInsert key val (heapRead c.heap c.store)) }

/-- `Delete`, heap model: delete from the loop's map object if present. -/
def HeapCache.del (c : HeapCache V) (key : String) : HeapCache V :=
  if (mapLookup key (heapRead c.heap c.store)).isSome then
    { c with heap :=
        heapWrite c.heap c.store (mapErase key (heapRead c.heap c.store)) }
  else c

/-- Two-loop `Items` (`cache.go` lines 118-130): copy the store entry by
entry into a fresh map `cp` and return the copy's reference. -/
def HeapCache.itemsCopy (c : HeapCache V) : Nat × HeapCache V :=
  let cp := (heapRead c.heap c.store).foldl (fun acc p => mapInsert p.1 p.2 acc) []
  let r := heapAlloc c.heap cp
  (r.1, { c with heap := r.2 })

/-- Single-loop `Items` (`cache.go` lines 240-247): `result <- items`
returns the reference to the live map itself. -/
def HeapCache.itemsLive (c : HeapCache V) : Nat × HeapCache V :=
  (c.store, c)

/-! ## Equivalence of the two variants on the shared operation set -/

theorem runOps_agree [Inhabited V] (ops : List (CacheOp V)) :
    ∀ (st : CacheState V) (s : List (String × V)), st.items = s →
      (Cache.runOps st ops).2 = (CacheV1.runOps s ops).2 ∧
      (Cache.runOps st ops).1.items = (CacheV1.runOps s ops).1 := by
  induction ops with
  | nil =>
      intro st s h
      exact ⟨rfl, h⟩
  | cons op rest ih =>
      intro st s h
      cases op with
      | add k v =>
          have h2 : (Cache.Add st k v).items = CacheV1.Add s k v := by
            simp [Cache.Add, CacheV1.Add, h]
          have hrec := ih _ _ h2
          simp only [Cache.runOps, CacheV1.runOps, Cache.applyOp, CacheV1.applyOp]
          exact ⟨by rw [hrec.1], hrec.2⟩
      | del k =>
          have h2 : (Cache.Delete st k).items = CacheV1.Delete s k := by
            simp [Cache.Delete, CacheV1.Delete, h]
          have hrec := ih _ _ h2
          simp only [Cache.runOps, CacheV1.runOps, Cache.applyOp, CacheV1.applyOp]
          exact ⟨by rw [hrec.1], hrec.2⟩
      | clear =>
          have h2 : (Cache.Clear st).items = CacheV1.Clear s := by
            simp [Cache.Clear, CacheV1.Clear, h]
          have hrec := ih _ _ h2
          simp only [Cache.runOps, CacheV1.runOps, Cache.applyOp, CacheV1.applyOp]
          exact ⟨by rw [hrec.1], hrec.2⟩
      | get k =>
          have hrec := ih st s h
          simp only [Cache.runOps, CacheV1.runOps, Cache.applyOp, CacheV1.applyOp]
          refine ⟨?_, hrec.2⟩
          rw [hrec.1]
          simp [Cache.Get, CacheV1.Get, h]
      | getf k =>
          have hrec := ih st s h
          simp only [Cache.runOps, CacheV1.runOps, Cache.applyOp, CacheV1.applyOp]
          refine ⟨?_, hrec.2⟩
          rw [hrec.1]
          simp [Cache.Getf, CacheV1.Getf, h]
      | keys =>
          have hrec := ih st s h
          simp only [Cache.runOps, CacheV1.runOps, Cache.applyOp, CacheV1.applyOp]
          refine ⟨?_, hrec.2⟩
          rw [hrec.1]
          simp [Cache.Keys, CacheV1.Keys, h]

/-! ## The claims -/

/-- Claim C1, counterexample: a set call does not first cancel and remove
a prior pending expiry record.  Concretely, after `Addf New "k" 0 5` the
record for `"k"` (timer 0) is pending, and after the set call
`Add _ "k" 1` completes, that same record — armed before the call — is
still pending, and the expiry store is untouched. -/
theorem claim_C1_counterexample :
    pendingExpiry (Cache.Addf (Cache.New (V := Nat)) "k" 0 5) "k" = true ∧
    pendingExpiry
      (Cache.Add (Cache.Addf (Cache.New (V := Nat)) "k" 0 5) "k" 1) "k" = true ∧
    (Cache.Add (Cache.Addf (Cache.New (V := Nat)) "k" 0 5) "k" 1).expiries =
      (Cache.Addf (Cache.New (V := Nat)) "k" 0 5).expiries := by
  decide

/-- Claim C1, amended: a set call performs no disarm step before the
insert.  `Add` leaves the expiry store (records and timers) untouched;
`Addf` inserts the value first, and then its expiry-loop operation stops
any previously armed timer for the key and replaces the record with a
freshly armed one, so after `Addf` completes no record armed before the
call remains pending for that key. -/
theorem claim_C1_amended (st : CacheState V) (k : String) (v : V) (d : Nat) :
    (Cache.Add st k v).expiries = st.expiries ∧
    (Cache.Add st k v).timers = st.timers ∧
    (Cache.Addf st k v d).items = mapInsert k v st.items ∧
    (∀ tid, WF st → mapLookup k st.expiries = some tid →
      timerPending (Cache.Addf st k v d) tid = false ∧
      mapLookup k (Cache.Addf st k v d).expiries = some st.nextTimer) := by
  refine ⟨rfl, rfl, rfl, ?_⟩
  intro tid hwf hk
  have hlt : tid < st.nextTimer := hwf.expiries_lt k tid hk
  have hk' : mapLookup k (Cache.Add st k v).expiries = some tid := hk
  exact ⟨timerPending_arm_old d hlt hk', arm_lookup_self k d⟩

/-- Witness for the amended claim C1 at a concrete reachable state:
re-setting `"k"` with a new TTL stops the first timer. -/
theorem claim_C1_amended_witness :
    timerPending
      (Cache.Addf (Cache.Addf (Cache.New (V := Nat)) "k" 0 5) "k" 1 7) 0 =
      false :=
  ((claim_C1_amended (Cache.Addf (Cache.New (V := Nat)) "k" 0 5) "k" 1 7).2.2.2
    0 (wf_addf "k" 0 5 wf_new) (by decide)).1

/-- Claim C2: in every reachable state each key has at most one expiry
record, and the arm operation preserves this; when a record already
exists for the key, the resulting state has that record's timer stopped
and the fresh timer handle stored under the key. -/
theorem claim_C2 (st : CacheState V) (h : Reachable st) :
    (∀ key, expiryRecordCount st key ≤ 1) ∧
    (∀ key d,
      (∀ key', expiryRecordCount (Cache.arm st key d) key' ≤ 1) ∧
      (∀ tid, mapLookup key st.expiries = some tid →
        timerPending (Cache.arm st key d) tid = false ∧
        mapLookup key (Cache.arm st key d).expiries = some st.nextTimer)) := by
  have hwf := reachable_wf h
  refine ⟨fun key => expiryRecordCount_le_one key hwf, ?_⟩
  intro key d
  refine ⟨fun key' => expiryRecordCount_le_one key' (wf_arm key d hwf), ?_⟩
  intro tid hk
  exact ⟨timerPending_arm_old d (hwf.expiries_lt key tid hk) hk,
    arm_lookup_self key d⟩

/-- Witness for claim C2 at the concrete reachable state `New`. -/
theorem claim_C2_witness :
    expiryRecordCount (Cache.New (V := Nat)) "k" ≤ 1 :=
  (claim_C2 Cache.New Reachable.new).1 "k"

/-- Claim C3: `Delete` only submits to the item loop; the expiry store
(records, timers, and the fresh-handle counter) is exactly unchanged, so
every pending record stays pending. -/
theorem claim_C3 (st : CacheState V) (key : String) :
    (Cache.Delete st key).expiries = st.expiries ∧
    (Cache.Delete st key).timers = st.timers ∧
    (Cache.Delete st key).nextTimer = st.nextTimer ∧
    (∀ k', pendingExpiry (Cache.Delete st key) k' = pendingExpiry st k') :=
  ⟨rfl, rfl, rfl, fun _ => rfl⟩

/-- Claim C4, evaluated at the failing input: in the single-loop variant
`Items` returns the live map, so a `Delete` performed after the snapshot
empties the snapshot too; the two-loop variant's copying `Items` keeps
the snapshot intact through the same mutation. -/
theorem claim_C4_items_aliasing :
    (heapRead (HeapCache.itemsLive (HeapCache.add (HeapCache.new (V := Nat))
        "k" 1)).2.heap
      (HeapCache.itemsLive (HeapCache.add (HeapCache.new (V := Nat))
        "k" 1)).1 = [("k", 1)]) ∧
    (heapRead (HeapCache.del (HeapCache.itemsLive
        (HeapCache.add (HeapCache.new (V := Nat)) "k" 1)).2 "k").heap
      (HeapCache.itemsLive (HeapCache.add (HeapCache.new (V := Nat))
        "k" 1)).1 = []) ∧
    (heapRead (HeapCache.itemsCopy (HeapCache.add (HeapCache.new (V := Nat))
        "k" 1)).2.heap
      (HeapCache.itemsCopy (HeapCache.add (HeapCache.new (V := Nat))
        "k" 1)).1 = [("k", 1)]) ∧
    (heapRead (HeapCache.del (HeapCache.itemsCopy
        (HeapCache.add (HeapCache.new (V := Nat)) "k" 1)).2 "k").heap
      (HeapCache.itemsCopy (HeapCache.add (HeapCache.new (V := Nat))
        "k" 1)).1 = [("k", 1)]) := by
  decide

/-- Claim C5: `Add(K, V)` followed immediately by `Get(K)` returns `V`. -/
theorem claim_C5 [Inhabited V] (st : CacheState V) (k : String) (v : V) :
    Cache.Get (Cache.Add st k v) k = v := by
  unfold Cache.Get Cache.Add
  simp [mapLookup_mapInsert_self]

/-- Claim C6: on an absent key, `Getf` returns the zero value and
`false`, and `Get` returns the zero value; no error is involved. -/
theorem claim_C6 [Inhabited V] (st : CacheState V) (k : String)
    (h : mapLookup k st.items = none) :
    Cache.Getf st k = (default, false) ∧ Cache.Get st k = default := by
  unfold Cache.Getf Cache.Get
  rw [h]
  simp

/-- Witness for claim C6 on a fresh cache and a never-added key. -/
theorem claim_C6_witness :
    Cache.Getf (Cache.New (V := Nat)) "missing" = (default, false) ∧
    Cache.Get (Cache.New (V := Nat)) "missing" = default :=
  claim_C6 Cache.New "missing" rfl

/-- Claim C7: `Keys` returns exactly the keys of the item store, sorted
ascending and without duplicates, independent of insertion order. -/
theorem claim_C7 (st : CacheState V) (h : NodupKeys st.items) :
    (Cache.Keys st).Sorted (fun a b : String => a ≤ b) ∧
    (Cache.Keys st).Nodup ∧
    (∀ k, k ∈ Cache.Keys st ↔ (mapLookup k st.items).isSome = true) := by
  unfold Cache.Keys
  refine ⟨List.sorted_insertionSort _ _, ?_, ?_⟩
  · exact (List.perm_insertionSort (fun a b : String => a ≤ b)
      (mapKeys st.items)).nodup_iff.2 h
  · intro k
    rw [mapLookup_isSome_iff_mem]
    exact (List.perm_insertionSort _ _).mem_iff

/-- Witness for claim C7 at a concrete one-entry store. -/
theorem claim_C7_witness :
    "k" ∈ Cache.Keys (Cache.Add (Cache.New (V := Nat)) "k" 1) ↔
      (mapLookup "k" (Cache.Add (Cache.New (V := Nat)) "k" 1).items).isSome =
        true :=
  (claim_C7 (Cache.Add (Cache.New (V := Nat)) "k" 1) (by decide)).2.2 "k"

/-- Claim C8: deleting an absent key is a no-op on the whole state, and
`Delete` is idempotent. -/
theorem claim_C8 (st : CacheState V) (k : String) :
    (mapLookup k st.items = none → Cache.Delete st k = st) ∧
    Cache.Delete (Cache.Delete st k) k = Cache.Delete st k := by
  constructor
  · intro h
    unfold Cache.Delete
    rw [h]
    rfl
  · unfold Cache.Delete
    by_cases h : (mapLookup k st.items).isSome
    · simp [h, mapLookup_mapErase_self]
    · simp [h]

/-- Witness for claim C8: deleting from a fresh cache changes nothing. -/
theorem claim_C8_witness :
    Cache.Delete (Cache.New (V := Nat)) "k" = Cache.New :=
  (claim_C8 (Cache.New (V := Nat)) "k").1 rfl

/-- Claim C9: `Get` is exactly the first component of `Getf`. -/
theorem claim_C9 [Inhabited V] (st : CacheState V) (k : String) :
    Cache.Get st k = (Cache.Getf st k).1 :=
  rfl

/-- Claim C10: on the shared TTL-free operation set (`Add`, `Get`,
`Getf`, `Delete`, `Clear`, `Keys`) the two-loop and single-loop variants
produce identical observable outcomes and identical final item stores. -/
theorem claim_C10 [Inhabited V] (ops : List (CacheOp V)) :
    (Cache.runOps Cache.New ops).2 = (CacheV1.runOps CacheV1.New ops).2 ∧
    (Cache.runOps Cache.New ops).1.items = (CacheV1.runOps CacheV1.New ops).1 :=
  runOps_agree ops Cache.New CacheV1.New rfl
